import Mathlib

/-!
Verification of the pagination and addressing layer of `HtmlDocument`
(`src/document/html/mod.rs`): lazy page construction, offset-based location
resolution, fragment-link resolution, and page-scoped content extraction.

The markup tree (`dom::Node`), the layout engine (`engine.rs`) and the
geometric types (`geom`) are external to the verified core; they are modelled
from the spec's data-model section, and the engine's `build_display_list`
call — a black box per the spec's external-interfaces section — is abstracted
as a function field producing the raw page list.
-/

namespace Plato

/-- Modelled from the spec: a rectangle in device pixels (the `geom` module is
not part of the verified core; only its identity as a payload matters here). -/
structure Rect where
  minX : Int
  minY : Int
  maxX : Int
  maxY : Int
deriving DecidableEq

/-- Modelled from the spec: edge insets used for margins. -/
structure Edge where
  top : Int
  right : Int
  bottom : Int
  left : Int
deriving DecidableEq

/-- Modelled from the spec: text alignment configuration (the `layout` module
is not part of the verified core). -/
inductive TextAlign where
  | left
  | right
  | center
  | justify
deriving DecidableEq

/-- Modelled from the spec: a Text draw command — rendered string, bounding
rectangle in device pixels, source offset, optional link URI, alignment. -/
structure TextCommand where
  offset : Nat
  text : String
  rect : Rect
  uri : Option String
  align : TextAlign
deriving DecidableEq

/-- Modelled from the spec: an Image draw command — bounding rectangle,
source offset, optional link URI. -/
structure ImageCommand where
  offset : Nat
  rect : Rect
  uri : Option String
deriving DecidableEq

/-- Modelled from the spec: a draw command is a tagged variant over
Text, Image and Marker; a Marker carries a source offset only. -/
inductive DrawCommand where
  | text : TextCommand → DrawCommand
  | image : ImageCommand → DrawCommand
  | marker : Nat → DrawCommand
deriving DecidableEq

/-- Modelled from the spec: every draw command carries its originating
source offset. -/
def DrawCommand.offset : DrawCommand → Nat
  | .text t => t.offset
  | .image im => im.offset
  | .marker o => o

/-- A page is an ordered sequence of draw commands (`engine::Page`). -/
def Page := List DrawCommand
deriving DecidableEq

/-- Modelled from the spec: a content-tree node — optional tag name,
attribute mapping, ordered children, optional text payload, source byte
offset.  The source's `children()` returns an option; an absent child list
is modelled as the empty list, which `cache_uris` treats identically. -/
inductive Node where
  | mk : Option String → List (String × String) → List Node → Option String → Nat → Node

/-- The node's source byte offset (`Node::offset`). -/
def Node.offset : Node → Nat
  | .mk _ _ _ _ o => o

/-- The node's attribute list. -/
def Node.attrs : Node → List (String × String)
  | .mk _ a _ _ _ => a

/-- The node's children. -/
def Node.children : Node → List Node
  | .mk _ _ c _ _ => c

/-- Attribute lookup (`Node::attr`): the value of the first attribute with
the given name. -/
def Node.attr (n : Node) (key : String) : Option String :=
  (n.attrs.find? (fun p => decide (p.1 = key))).map (fun p => p.2)

/-- Modelled from the spec: dynamic text locations carry a source offset. -/
inductive TextLocation where
  | dynamic : Nat → TextLocation
deriving DecidableEq

/-- Modelled from the spec: a bounded-text record — string, device-pixel
rectangle, text location. -/
structure BoundedText where
  text : String
  rect : Rect
  location : TextLocation
deriving DecidableEq

/-- The location argument of `resolve_location` (`document::Location`). -/
inductive Location where
  | exact : Nat → Location
  | previous : Nat → Location
  | next : Nat → Location
  | uri : String → Location
  | localUri : Nat → String → Location

/-- Modelled from the spec: the layout engine's configuration surface
(`engine.rs` is not under the verified sources).  Floating-point settings
(font size, line height) are opaque payloads here — the verified core never
computes with them — and are carried as integers.  The
`build_display_list` pipeline call is abstracted as the `displayList`
field, a black box producing the raw page list from the content tree. -/
structure Engine where
  margin : Edge
  marginWidth : Int
  fontSize : Int
  lineHeight : Int
  textAlign : TextAlign
  dims : Nat × Nat
  dpi : Nat
  fontFamily : String
  fontSearchPath : String
  displayList : Node → List Page

/-- Modelled from the spec: `Engine::set_margin`. -/
def Engine.set_margin (e : Engine) (m : Edge) : Engine :=
  { e with margin := m }

/-- Modelled from the spec: `Engine::set_font_size`. -/
def Engine.set_font_size (e : Engine) (fs : Int) : Engine :=
  { e with fontSize := fs }

/-- Modelled from the spec: `Engine::set_text_align`. -/
def Engine.set_text_align (e : Engine) (ta : TextAlign) : Engine :=
  { e with textAlign := ta }

/-- Modelled from the spec: `Engine::set_font_family`. -/
def Engine.set_font_family (e : Engine) (family : String) (path : String) : Engine :=
  { e with fontFamily := family, fontSearchPath := path }

/-- Modelled from the spec: `Engine::set_margin_width`. -/
def Engine.set_margin_width (e : Engine) (w : Int) : Engine :=
  { e with marginWidth := w }

/-- Modelled from the spec: `Engine::set_line_height`. -/
def Engine.set_line_height (e : Engine) (lh : Int) : Engine :=
  { e with lineHeight := lh }

/-- Modelled from the spec: `Engine::layout` sets viewport dimensions,
font size and DPI. -/
def Engine.layout (e : Engine) (width height : Nat) (fs : Int) (dpi : Nat) : Engine :=
  { e with dims := (width, height), fontSize := fs, dpi := dpi }

/-- The document controller state (`HtmlDocument`): content tree, engine,
cached page list, resource root, source size, style-sheet paths, flag to
ignore document-supplied style sheets. -/
structure HtmlDoc where
  content : Node
  engine : Engine
  pages : List Page
  parent : String
  size : Nat
  viewer_stylesheet : String
  user_stylesheet : String
  ignore_document_css : Bool

/-- The page-list assembly step of `HtmlDocument::build_pages`: the raw
pages produced by the pipeline are filtered to drop empty pages
(`pages.retain(|page| !page.is_empty())`); if nothing remains, a single
page holding one Marker at the tree's root offset is synthesized. -/
def build_pages_from (raw : List Page) (rootOffset : Nat) : List Page :=
  let pages := raw.filter (fun p => !p.isEmpty)
  if pages.isEmpty then [[DrawCommand.marker rootOffset]] else pages

/-- `HtmlDocument::build_pages`: style-sheet loading feeds only the
black-box pipeline call, which is abstracted as `displayList`; the
assembly of the final page list follows the source. -/
def build_pages (d : HtmlDoc) : List Page :=
  build_pages_from (d.engine.displayList d.content) d.content.offset

/-- The lazy-build step at the top of `HtmlDocument::page_index`:
`if self.pages.is_empty() { self.pages = self.build_pages(); }`. -/
def ensure (d : HtmlDoc) : HtmlDoc :=
  if d.pages.isEmpty then { d with pages := build_pages d } else d

/-- The start offset of a page: the source offset of its first draw command
(0 for an empty page, which never occurs in a built list). -/
def pageStart (p : Page) : Nat :=
  ((p.head?).map DrawCommand.offset).getD 0

/-- The start offset of the `i`-th page of a page list. -/
def startAt (pages : List Page) (i : Nat) : Nat :=
  pageStart (pages.getD i [])

/-- The inner scan of `HtmlDocument::page_index`:
`for i in 1..self.pages.len()-1 { if pages[i].first() <= offset < pages[i+1].first() { return Some(i) } }`
followed by the fall-through `None`. -/
def page_index_loop (pages : List Page) (offset : Nat) (i : Nat) : Option Nat :=
  if i < pages.length - 1 then
    if ((pages.get? i).bind List.head?).map (fun dc => decide (offset ≥ dc.offset)) = some true ∧
       ((pages.get? (i+1)).bind List.head?).map (fun dc => decide (offset < dc.offset)) = some true then
      some i
    else
      page_index_loop pages offset (i+1)
  else
    none
termination_by pages.length - i

/-- The pure part of `HtmlDocument::page_index` (after the lazy build):
first page absorbs offsets below the second page's start, last page absorbs
offsets at or above its own start, otherwise a linear scan. -/
def page_index (pages : List Page) (offset : Nat) : Option Nat :=
  if pages.length < 2 ∨
     ((pages.get? 1).bind List.head?).map (fun dc => decide (offset < dc.offset)) = some true then
    some 0
  else if ((pages.get? (pages.length - 1)).bind List.head?).map
            (fun dc => decide (offset ≥ dc.offset)) = some true then
    some (pages.length - 1)
  else
    page_index_loop pages offset 1

/-- `HtmlDocument::page_index` as called on the controller: builds the page
cache if it is empty, then resolves the offset against it. -/
def page_index_st (d : HtmlDoc) (offset : Nat) : Option Nat × HtmlDoc :=
  (page_index (ensure d).pages offset, ensure d)

lemma build_pages_ne_nil (d : HtmlDoc) : build_pages d ≠ [] := by
  unfold build_pages build_pages_from
  by_cases h : ((d.engine.displayList d.content).filter (fun p => !p.isEmpty)).isEmpty
  · simp [h]
  · simp only [h, Bool.false_eq_true, if_false]
    intro hc
    rw [hc] at h
    simp at h

lemma build_pages_fallback (d : HtmlDoc)
    (h : (d.engine.displayList d.content).filter (fun p => !p.isEmpty) = []) :
    build_pages d = [[DrawCommand.marker d.content.offset]] := by
  unfold build_pages build_pages_from
  simp [h]

lemma build_pages_all_ne (d : HtmlDoc) : ∀ p ∈ build_pages d, p ≠ [] := by
  intro p hp
  unfold build_pages build_pages_from at hp
  by_cases h : ((d.engine.displayList d.content).filter (fun p => !p.isEmpty)).isEmpty
  · rw [if_pos h] at hp
    simp only [List.mem_singleton] at hp
    subst hp
    simp
  · rw [if_neg h] at hp
    have := (List.mem_filter.mp hp).2
    simpa using this

lemma ensure_pages_ne (d : HtmlDoc) : (ensure d).pages ≠ [] := by
  unfold ensure
  by_cases h : d.pages.isEmpty
  · rw [if_pos h]
    exact build_pages_ne_nil d
  · rw [if_neg h]
    intro hc
    rw [hc] at h
    simp at h

lemma ensure_all_ne (d : HtmlDoc) (hpp : ∀ p ∈ d.pages, p ≠ []) :
    ∀ p ∈ (ensure d).pages, p ≠ [] := by
  unfold ensure
  by_cases h : d.pages.isEmpty
  · rw [if_pos h]
    exact build_pages_all_ne d
  · rw [if_neg h]
    exact hpp

lemma ensure_eq_self (d : HtmlDoc) (h : d.pages ≠ []) : ensure d = d := by
  unfold ensure
  rw [if_neg]
  intro hc
  exact h (by simpa using hc)

/-- C1: after a page-build attempt the page list is non-empty; if the layout
pipeline produces no non-empty pages, `build_pages` synthesizes exactly one
page containing a single Marker command at the content tree's root offset. -/
theorem build_pages_spec (d : HtmlDoc) :
    build_pages d ≠ [] ∧
    ((d.engine.displayList d.content).filter (fun p => !p.isEmpty) = [] →
      build_pages d = [[DrawCommand.marker d.content.offset]]) :=
  ⟨build_pages_ne_nil d, build_pages_fallback d⟩

lemma get?_getD {α : Type} (l : List α) (i : Nat) (d : α) (h : i < l.length) :
    l.get? i = some (l.getD i d) := by
  induction l generalizing i with
  | nil => simp at h
  | cons a t ih =>
    cases i with
    | zero => rfl
    | succ n => simpa using ih n (by simpa using h)

lemma getD_mem {α : Type} (l : List α) (i : Nat) (d : α) (h : i < l.length) :
    l.getD i d ∈ l := by
  induction l generalizing i with
  | nil => simp at h
  | cons a t ih =>
    cases i with
    | zero => simp
    | succ n => simpa using Or.inr (ih n (by simpa using h))

/-- In a list whose pages are all non-empty, the `i`-th page's first command
exists and carries the page's start offset. -/
lemma first_cmd (pages : List Page) (hpp : ∀ p ∈ pages, p ≠ []) (i : Nat)
    (hi : i < pages.length) :
    ∃ a, (pages.get? i).bind List.head? = some a ∧ a.offset = startAt pages i := by
  have hget : pages.get? i = some (pages.getD i []) := get?_getD pages i [] hi
  have hne := hpp _ (getD_mem pages i [] hi)
  cases hp : pages.getD i [] with
  | nil => exact absurd hp hne
  | cons a t =>
    refine ⟨a, ?_, ?_⟩
    · rw [hget, hp]; rfl
    · rw [startAt, hp]; rfl

lemma cond_lt_iff (pages : List Page) (o i : Nat) (hpp : ∀ p ∈ pages, p ≠ [])
    (hi : i < pages.length) :
    (((pages.get? i).bind List.head?).map (fun dc => decide (o < dc.offset)) = some true) ↔
      o < startAt pages i := by
  obtain ⟨a, ha, hoff⟩ := first_cmd pages hpp i hi
  rw [ha]
  simp [hoff]

lemma cond_ge_iff (pages : List Page) (o i : Nat) (hpp : ∀ p ∈ pages, p ≠ [])
    (hi : i < pages.length) :
    (((pages.get? i).bind List.head?).map (fun dc => decide (o ≥ dc.offset)) = some true) ↔
      startAt pages i ≤ o := by
  obtain ⟨a, ha, hoff⟩ := first_cmd pages hpp i hi
  rw [ha]
  simp [hoff, ge_iff_le]

/-- The linear scan finds a page as soon as its invariant holds: the current
page starts at or before the queried offset and the offset lies below the
last page's start. -/
lemma page_index_loop_spec (pages : List Page) (o : Nat)
    (hpp : ∀ p ∈ pages, p ≠ []) (i : Nat)
    (hi : i < pages.length - 1) (hlo : startAt pages i ≤ o)
    (hhi : o < startAt pages (pages.length - 1)) :
    ∃ j, page_index_loop pages o i = some j ∧ i ≤ j ∧ j + 1 < pages.length ∧
      startAt pages j ≤ o ∧ o < startAt pages (j + 1) := by
  rw [page_index_loop, if_pos hi]
  have hilen : i < pages.length := by omega
  have hi1len : i + 1 < pages.length := by omega
  by_cases hc : o < startAt pages (i + 1)
  · rw [if_pos]
    · exact ⟨i, rfl, Nat.le_refl i, hi1len, hlo, hc⟩
    · exact ⟨(cond_ge_iff pages o i hpp hilen).mpr hlo,
            (cond_lt_iff pages o (i+1) hpp hi1len).mpr hc⟩
  · rw [if_neg]
    · have hi1 : i + 1 < pages.length - 1 := by
        rcases Nat.lt_or_ge (i+1) (pages.length - 1) with h | h
        · exact h
        · exfalso
          have : i + 1 = pages.length - 1 := by omega
          rw [this] at hc
          exact hc hhi
      have hlo1 : startAt pages (i + 1) ≤ o := by omega
      obtain ⟨j, hj, hij, hjl, hjlo, hjhi⟩ :=
        page_index_loop_spec pages o hpp (i+1) hi1 hlo1 hhi
      exact ⟨j, hj, by omega, hjl, hjlo, hjhi⟩
    · intro hand
      exact hc ((cond_lt_iff pages o (i+1) hpp hi1len).mp hand.2)
termination_by pages.length - i

/-- `page_index` always succeeds on a non-empty list of non-empty pages,
and the returned index satisfies the range characterization. -/
lemma page_index_some (pages : List Page) (o : Nat)
    (hne : pages ≠ []) (hpp : ∀ p ∈ pages, p ≠ []) :
    ∃ i, page_index pages o = some i ∧ i < pages.length ∧
      (0 < i → startAt pages i ≤ o) ∧
      (i + 1 < pages.length → o < startAt pages (i + 1)) := by
  have hlen : 0 < pages.length := List.length_pos.mpr hne
  unfold page_index
  by_cases h1 : pages.length < 2
  · rw [if_pos (Or.inl h1)]
    exact ⟨0, rfl, hlen, fun h => absurd h (by omega), fun h => absurd h (by omega)⟩
  · have h2len : 2 ≤ pages.length := by omega
    by_cases h2 : o < startAt pages 1
    · rw [if_pos (Or.inr ((cond_lt_iff pages o 1 hpp (by omega)).mpr h2))]
      exact ⟨0, rfl, hlen, fun h => absurd h (by omega), fun _ => h2⟩
    · rw [if_neg]
      · by_cases h3 : startAt pages (pages.length - 1) ≤ o
        · rw [if_pos ((cond_ge_iff pages o (pages.length - 1) hpp (by omega)).mpr h3)]
          refine ⟨pages.length - 1, rfl, by omega, fun _ => h3, fun h => absurd h (by omega)⟩
        · rw [if_neg]
          · have hne2 : pages.length ≠ 2 := by
              intro h
              rw [h] at h3
              simp only [show (2:Nat) - 1 = 1 from rfl] at h3
              omega
            have h1lt : 1 < pages.length - 1 := by omega
            obtain ⟨j, hj, hij, hjl, hjlo, hjhi⟩ :=
              page_index_loop_spec pages o hpp 1 h1lt (by omega) (by omega)
            exact ⟨j, hj, by omega, fun _ => hjlo, fun _ => hjhi⟩
          · intro hcond
            exact h3 ((cond_ge_iff pages o (pages.length - 1) hpp (by omega)).mp hcond)
      · intro hor
        rcases hor with h | h
        · exact h1 h
        · exact h2 ((cond_lt_iff pages o 1 hpp (by omega)).mp h)

/-- Strict monotonicity of a list of naturals, as a decidable scan. -/
def strictlyIncreasing : List Nat → Bool
  | [] => true
  | [_] => true
  | a :: b :: rest => decide (a < b) && strictlyIncreasing (b :: rest)

lemma strictlyIncreasing_getD :
    (l : List Nat) → strictlyIncreasing l = true →
    ∀ i j, i < j → j < l.length → l.getD i 0 < l.getD j 0
  | [], _, _, j, _, hj => by simp at hj
  | [a], _, i, j, hij, hj => by
    simp at hj
    omega
  | a :: b :: rest, h, i, j, hij, hj => by
    rw [strictlyIncreasing] at h
    have hab : a < b := by
      have := (Bool.and_eq_true _ _).mp h
      exact of_decide_eq_true this.1
    have htail : strictlyIncreasing (b :: rest) = true :=
      ((Bool.and_eq_true _ _).mp h).2
    match i, j with
    | 0, Nat.succ j =>
      have hj' : j < (b :: rest).length := by simpa using hj
      have hres : a < (b :: rest).getD j 0 := by
        cases Nat.eq_zero_or_pos j with
        | inl h0 =>
          subst h0
          simpa using hab
        | inr hpos =>
          have hbj := strictlyIncreasing_getD (b :: rest) htail 0 j hpos hj'
          simp only [List.getD_cons_zero] at hbj
          omega
      simpa using hres
    | Nat.succ i, Nat.succ j =>
      have := strictlyIncreasing_getD (b :: rest) htail i j (by omega) (by simpa using hj)
      simpa using this

lemma startAt_eq_map (pages : List Page) (i : Nat) :
    (pages.map pageStart).getD i 0 = startAt pages i := by
  induction pages generalizing i with
  | nil =>
    simp [startAt, pageStart]
  | cons p t ih =>
    cases i with
    | zero => simp [startAt]
    | succ n =>
      simp only [List.map_cons, List.getD_cons_succ]
      rw [ih n]
      rfl

lemma startAt_mono (pages : List Page)
    (hs : strictlyIncreasing (pages.map pageStart) = true) :
    ∀ i j, i < j → j < pages.length → startAt pages i < startAt pages j := by
  intro i j hij hj
  have := strictlyIncreasing_getD _ hs i j hij (by simpa using hj)
  rwa [startAt_eq_map, startAt_eq_map] at this

/-- The range characterization of a page index determines it uniquely when
page starts are strictly increasing. -/
lemma page_index_char_unique (pages : List Page) (o : Nat)
    (hs : strictlyIncreasing (pages.map pageStart) = true) :
    ∀ i j, i < pages.length → j < pages.length →
    (0 < i → startAt pages i ≤ o) → (i + 1 < pages.length → o < startAt pages (i + 1)) →
    (0 < j → startAt pages j ≤ o) → (j + 1 < pages.length → o < startAt pages (j + 1)) →
    i = j := by
  have key : ∀ i j, i < pages.length → j < pages.length →
      (i + 1 < pages.length → o < startAt pages (i + 1)) →
      (0 < j → startAt pages j ≤ o) → i < j → False := by
    intro i j hi hj hi2 hj1 hij
    have h1 : startAt pages j ≤ o := hj1 (by omega)
    have h2 : o < startAt pages (i + 1) := hi2 (by omega)
    have h3 : startAt pages (i + 1) ≤ startAt pages j := by
      rcases Nat.lt_or_ge (i + 1) j with hlt | hge
      · exact Nat.le_of_lt (startAt_mono pages hs (i + 1) j hlt hj)
      · have heq : i + 1 = j := by omega
        rw [heq]
    omega
  intro i j hi hj hi1 hi2 hj1 hj2
  rcases Nat.lt_trichotomy i j with h | h | h
  · exact absurd (key i j hi hj hi2 hj1 h) not_false
  · exact h
  · exact absurd (key j i hj hi hj2 hi1 h) not_false

/-- Tie-break: an offset equal to a page's start offset resolves to that
page. -/
lemma page_index_start (pages : List Page)
    (hne : pages ≠ []) (hpp : ∀ p ∈ pages, p ≠ [])
    (hs : strictlyIncreasing (pages.map pageStart) = true)
    (k : Nat) (hk : k < pages.length) :
    page_index pages (startAt pages k) = some k := by
  obtain ⟨i, hpi, hilen, h1, h2⟩ := page_index_some pages (startAt pages k) hne hpp
  have hik : i = k :=
    page_index_char_unique pages (startAt pages k) hs i k hilen hk h1 h2
      (fun _ => Nat.le_refl _)
      (fun hk1 => startAt_mono pages hs k (k + 1) (by omega) hk1)
  rw [hik] at hpi
  exact hpi

/-- C2: on a built page list with strictly increasing page start offsets,
`page_index` returns the unique index whose range contains the offset — the
first page absorbing all offsets below the second page's start, the last
page absorbing all offsets at or above its own start — and an offset equal
to a page's start offset belongs to that page. -/
theorem page_index_spec (pages : List Page) (o : Nat)
    (hne : pages ≠ []) (hpp : ∀ p ∈ pages, p ≠ [])
    (hs : strictlyIncreasing (pages.map pageStart) = true) :
    (∃ i, page_index pages o = some i ∧ i < pages.length ∧
      (0 < i → startAt pages i ≤ o) ∧
      (i + 1 < pages.length → o < startAt pages (i + 1)) ∧
      (∀ j, j < pages.length → (0 < j → startAt pages j ≤ o) →
        (j + 1 < pages.length → o < startAt pages (j + 1)) → j = i)) ∧
    (∀ k, k < pages.length → page_index pages (startAt pages k) = some k) := by
  obtain ⟨i, hpi, hilen, h1, h2⟩ := page_index_some pages o hne hpp
  refine ⟨⟨i, hpi, hilen, h1, h2, ?_⟩, fun k hk => page_index_start pages hne hpp hs k hk⟩
  intro j hj hj1 hj2
  exact page_index_char_unique pages o hs j i hj hilen hj1 hj2 h1 h2

/-- The URI cache is a mapping from `"<name>#<id>"` keys to source offsets;
as in a hash map, a later insertion of a key overwrites an earlier one, so
lookup returns the value of the last insertion. -/
def mapGet (entries : List (String × Nat)) (key : String) : Option Nat :=
  (entries.reverse.find? (fun e => decide (e.1 = key))).map (fun e => e.2)

mutual
/-- `HtmlDocument::cache_uris`: walk the tree depth-first; for every node
carrying an `id` attribute insert `"<name>#<id>" ↦ node offset`, the node
itself before its children. -/
def cacheUris (name : String) : Node → List (String × Nat)
  | .mk t a children x o =>
    (match (Node.mk t a children x o).attr "id" with
     | some id => [(name ++ "#" ++ id, o)]
     | none => []) ++ cacheUrisList name children

def cacheUrisList (name : String) : List Node → List (String × Nat)
  | [] => []
  | c :: cs => cacheUris name c ++ cacheUrisList name cs
end

/-- The index of the first `'#'` in a character list (`str::find('#')`). -/
def findHash : List Char → Option Nat
  | [] => none
  | c :: cs => if c = '#' then some 0 else (findHash cs).map (fun i => i + 1)

/-- `HtmlDocument::resolve_link`: fail on a URI without a fragment,
otherwise build the URI cache over the whole tree using the part before the
first `'#'` as name, and look the full URI up. -/
def resolve_link (root : Node) (uri : String) : Option Nat :=
  match findHash uri.data with
  | none => none
  | some i => mapGet (cacheUris (String.mk (uri.data.take i)) root) uri

/-- `HtmlDocument::resolve_location` (`Document` impl): `Exact` snaps to the
containing page's first command, `Previous`/`Next` move one page when
possible, URIs delegate to `resolve_link`; the page cache is built lazily by
`page_index` for the offset-based variants.  (`engine.load_fonts()` only
mutates external font state and has no observable effect on this model.) -/
def resolve_location (d : HtmlDoc) (loc : Location) : Option Nat × HtmlDoc :=
  match loc with
  | .exact offset =>
    let r := page_index_st d offset
    ((match r.1 with
      | none => none
      | some i => ((r.2.pages.get? i).bind List.head?).map DrawCommand.offset), r.2)
  | .previous offset =>
    let r := page_index_st d offset
    ((match r.1 with
      | none => none
      | some i =>
        if 0 < i then
          ((r.2.pages.get? (i - 1)).bind List.head?).map DrawCommand.offset
        else
          none), r.2)
  | .next offset =>
    let r := page_index_st d offset
    ((match r.1 with
      | none => none
      | some i =>
        if i < r.2.pages.length - 1 then
          ((r.2.pages.get? (i + 1)).bind List.head?).map DrawCommand.offset
        else
          none), r.2)
  | .uri u => (resolve_link d.content u, d)
  | .localUri _ u => (resolve_link d.content u, d)

/-- The per-command filter of `HtmlDocument::words`: a Text command yields a
bounded-text record carrying its string, rectangle and source offset as a
dynamic text location; other commands yield nothing. -/
def wordRecord : DrawCommand → Option BoundedText
  | .text t => some { text := t.text, rect := t.rect, location := TextLocation.dynamic t.offset }
  | _ => none

/-- `HtmlDocument::words`: resolve the location, locate its page, collect
the page's Text commands, and pair them with the resolved offset. -/
def words (d : HtmlDoc) (loc : Location) : Option (List BoundedText × Nat) × HtmlDoc :=
  match resolve_location d loc with
  | (none, d1) => (none, d1)
  | (some offset, d1) =>
    let r := page_index_st d1 offset
    ((match r.1 with
      | none => none
      | some i => some ((r.2.pages.getD i []).filterMap wordRecord, offset)), r.2)

/-- `HtmlDocument::set_margin`. -/
def set_margin (d : HtmlDoc) (m : Edge) : HtmlDoc :=
  { d with engine := d.engine.set_margin m, pages := [] }

/-- `HtmlDocument::set_font_size`. -/
def set_font_size (d : HtmlDoc) (fs : Int) : HtmlDoc :=
  { d with engine := d.engine.set_font_size fs, pages := [] }

/-- `HtmlDocument::set_viewer_stylesheet`. -/
def set_viewer_stylesheet (d : HtmlDoc) (path : String) : HtmlDoc :=
  { d with viewer_stylesheet := path, pages := [] }

/-- `HtmlDocument::set_user_stylesheet`. -/
def set_user_stylesheet (d : HtmlDoc) (path : String) : HtmlDoc :=
  { d with user_stylesheet := path, pages := [] }

/-- `HtmlDocument::layout` (`Document` impl). -/
def layout (d : HtmlDoc) (width height : Nat) (fs : Int) (dpi : Nat) : HtmlDoc :=
  { d with engine := d.engine.layout width height fs dpi, pages := [] }

/-- `HtmlDocument::set_text_align` (`Document` impl). -/
def set_text_align (d : HtmlDoc) (ta : TextAlign) : HtmlDoc :=
  { d with engine := d.engine.set_text_align ta, pages := [] }

/-- `HtmlDocument::set_font_family` (`Document` impl). -/
def set_font_family (d : HtmlDoc) (family : String) (path : String) : HtmlDoc :=
  { d with engine := d.engine.set_font_family family path, pages := [] }

/-- `HtmlDocument::set_margin_width` (`Document` impl). -/
def set_margin_width (d : HtmlDoc) (w : Int) : HtmlDoc :=
  { d with engine := d.engine.set_margin_width w, pages := [] }

/-- `HtmlDocument::set_line_height` (`Document` impl). -/
def set_line_height (d : HtmlDoc) (lh : Int) : HtmlDoc :=
  { d with engine := d.engine.set_line_height lh, pages := [] }

/-- A concrete engine whose pipeline produces no pages, for witnesses. -/
def sampleEngine : Engine :=
  { margin := ⟨0, 0, 0, 0⟩, marginWidth := 0, fontSize := 0, lineHeight := 0,
    textAlign := TextAlign.left, dims := (0, 0), dpi := 0, fontFamily := "",
    fontSearchPath := "", displayList := fun _ => [] }

/-- A concrete document controller over a given tree and page cache. -/
def mkDoc (content : Node) (pages : List Page) : HtmlDoc :=
  { content := content, engine := sampleEngine, pages := pages, parent := "",
    size := 0, viewer_stylesheet := "", user_stylesheet := "",
    ignore_document_css := false }

theorem build_pages_spec_witness :
    build_pages (mkDoc (Node.mk (some "html") [] [] none 7) []) =
      [[DrawCommand.marker 7]] :=
  (build_pages_spec (mkDoc (Node.mk (some "html") [] [] none 7) [])).2 rfl

/-- C5: every configuration setter leaves the cached page list empty. -/
theorem setters_clear_pages (d : HtmlDoc) (m : Edge) (fs lh w : Int)
    (path family : String) (ta : TextAlign) (width height dpi : Nat) :
    (set_margin d m).pages = [] ∧
    (set_font_size d fs).pages = [] ∧
    (set_viewer_stylesheet d path).pages = [] ∧
    (set_user_stylesheet d path).pages = [] ∧
    (layout d width height fs dpi).pages = [] ∧
    (set_text_align d ta).pages = [] ∧
    (set_font_family d family path).pages = [] ∧
    (set_margin_width d w).pages = [] ∧
    (set_line_height d lh).pages = [] :=
  ⟨rfl, rfl, rfl, rfl, rfl, rfl, rfl, rfl, rfl⟩

/-- A tree with one fragment target (`id="a"` at offset 5), for the C4
counterexample. -/
def uriTree : Node :=
  Node.mk (some "html") [] [Node.mk (some "a") [("id", "a")] [] none 5] none 0

/-- C4 counterexample: resolving a URI location succeeds while leaving an
empty page cache empty — URI resolution never triggers page construction. -/
theorem resolve_location_uri_skips_build :
    (resolve_location (mkDoc uriTree []) (Location.uri "#a")).1 = some 5 ∧
    (resolve_location (mkDoc uriTree []) (Location.uri "#a")).2.pages = [] := by
  constructor
  · decide
  · rfl

/-- C4, amended: for the offset-based locations (Exact, Previous, Next),
`resolve_location` triggers page construction when the cache is empty, so
after any such call the cached page list is non-empty; URI and LocalUri
locations resolve through the link cache and do not touch the page cache. -/
theorem resolve_location_offset_builds (d : HtmlDoc) (o : Nat) :
    (resolve_location d (Location.exact o)).2.pages ≠ [] ∧
    (resolve_location d (Location.previous o)).2.pages ≠ [] ∧
    (resolve_location d (Location.next o)).2.pages ≠ [] :=
  ⟨ensure_pages_ne d, ensure_pages_ne d, ensure_pages_ne d⟩

theorem page_index_spec_witness :
    (∃ i, page_index [[DrawCommand.marker 0], [DrawCommand.marker 10], [DrawCommand.marker 20]] 15 = some i ∧
      i < 3 ∧
      (0 < i → startAt [[DrawCommand.marker 0], [DrawCommand.marker 10], [DrawCommand.marker 20]] i ≤ 15) ∧
      (i + 1 < 3 → 15 < startAt [[DrawCommand.marker 0], [DrawCommand.marker 10], [DrawCommand.marker 20]] (i + 1)) ∧
      (∀ j, j < 3 →
        (0 < j → startAt [[DrawCommand.marker 0], [DrawCommand.marker 10], [DrawCommand.marker 20]] j ≤ 15) →
        (j + 1 < 3 → 15 < startAt [[DrawCommand.marker 0], [DrawCommand.marker 10], [DrawCommand.marker 20]] (j + 1)) →
        j = i)) ∧
    (∀ k, k < 3 →
      page_index [[DrawCommand.marker 0], [DrawCommand.marker 10], [DrawCommand.marker 20]]
        (startAt [[DrawCommand.marker 0], [DrawCommand.marker 10], [DrawCommand.marker 20]] k) = some k) :=
  page_index_spec [[DrawCommand.marker 0], [DrawCommand.marker 10], [DrawCommand.marker 20]] 15
    (by decide) (by decide) (by decide)

lemma first_offset (pages : List Page) (hpp : ∀ p ∈ pages, p ≠ []) (i : Nat)
    (hi : i < pages.length) :
    ((pages.get? i).bind List.head?).map DrawCommand.offset = some (startAt pages i) := by
  obtain ⟨a, ha, hoff⟩ := first_cmd pages hpp i hi
  rw [ha]
  simp [hoff]

lemma resolve_exact_eval (d : HtmlDoc) (o i : Nat) (hne : d.pages ≠ [])
    (hpp : ∀ p ∈ d.pages, p ≠ []) (hpi : page_index d.pages o = some i)
    (hilen : i < d.pages.length) :
    (resolve_location d (Location.exact o)).1 = some (startAt d.pages i) := by
  have he : ensure d = d := ensure_eq_self d hne
  simp only [resolve_location, page_index_st, he, hpi]
  exact first_offset d.pages hpp i hilen

lemma resolve_previous_eval (d : HtmlDoc) (o i : Nat) (hne : d.pages ≠ [])
    (hpp : ∀ p ∈ d.pages, p ≠ []) (hpi : page_index d.pages o = some i)
    (hilen : i < d.pages.length) :
    (resolve_location d (Location.previous o)).1 =
      (if 0 < i then some (startAt d.pages (i - 1)) else none) := by
  have he : ensure d = d := ensure_eq_self d hne
  simp only [resolve_location, page_index_st, he, hpi]
  by_cases h0 : 0 < i
  · rw [if_pos h0, if_pos h0]
    exact first_offset d.pages hpp (i - 1) (by omega)
  · rw [if_neg h0, if_neg h0]

lemma resolve_next_eval (d : HtmlDoc) (o i : Nat) (hne : d.pages ≠ [])
    (hpp : ∀ p ∈ d.pages, p ≠ []) (hpi : page_index d.pages o = some i)
    (hilen : i < d.pages.length) :
    (resolve_location d (Location.next o)).1 =
      (if i < d.pages.length - 1 then some (startAt d.pages (i + 1)) else none) := by
  have he : ensure d = d := ensure_eq_self d hne
  simp only [resolve_location, page_index_st, he, hpi]
  by_cases h0 : i < d.pages.length - 1
  · rw [if_pos h0, if_pos h0]
    exact first_offset d.pages hpp (i + 1) (by omega)
  · rw [if_neg h0, if_neg h0]

/-- C6: on a built page list, `Previous(o)` yields the start offset of the
page immediately before the page containing `o`, and `None` exactly when
`o` falls on the first page; `Next(o)` yields the start offset of the page
immediately after, and `None` exactly when `o` falls on the last page. -/
theorem resolve_prev_next_spec (d : HtmlDoc) (o : Nat)
    (hne : d.pages ≠ []) (hpp : ∀ p ∈ d.pages, p ≠ []) :
    ∃ i, page_index d.pages o = some i ∧
      (resolve_location d (Location.previous o)).1 =
        (if i = 0 then none else some (startAt d.pages (i - 1))) ∧
      (resolve_location d (Location.next o)).1 =
        (if i = d.pages.length - 1 then none else some (startAt d.pages (i + 1))) := by
  obtain ⟨i, hpi, hilen, _, _⟩ := page_index_some d.pages o hne hpp
  refine ⟨i, hpi, ?_, ?_⟩
  · rw [resolve_previous_eval d o i hne hpp hpi hilen]
    by_cases h0 : i = 0
    · rw [if_neg (by omega), if_pos h0]
    · rw [if_pos (by omega), if_neg h0]
  · rw [resolve_next_eval d o i hne hpp hpi hilen]
    by_cases h0 : i = d.pages.length - 1
    · rw [if_neg (by omega), if_pos h0]
    · rw [if_pos (by omega), if_neg h0]

theorem resolve_prev_next_spec_witness :
    ∃ i, page_index (mkDoc (Node.mk none [] [] none 0)
        [[DrawCommand.marker 0], [DrawCommand.marker 10]]).pages 12 = some i ∧
      (resolve_location (mkDoc (Node.mk none [] [] none 0)
          [[DrawCommand.marker 0], [DrawCommand.marker 10]]) (Location.previous 12)).1 =
        (if i = 0 then none else some (startAt (mkDoc (Node.mk none [] [] none 0)
          [[DrawCommand.marker 0], [DrawCommand.marker 10]]).pages (i - 1))) ∧
      (resolve_location (mkDoc (Node.mk none [] [] none 0)
          [[DrawCommand.marker 0], [DrawCommand.marker 10]]) (Location.next 12)).1 =
        (if i = (mkDoc (Node.mk none [] [] none 0)
          [[DrawCommand.marker 0], [DrawCommand.marker 10]]).pages.length - 1 then none
         else some (startAt (mkDoc (Node.mk none [] [] none 0)
          [[DrawCommand.marker 0], [DrawCommand.marker 10]]).pages (i + 1))) :=
  resolve_prev_next_spec (mkDoc (Node.mk none [] [] none 0)
    [[DrawCommand.marker 0], [DrawCommand.marker 10]]) 12 (by decide) (by decide)

/-- C7: `resolve_location(Exact(o))` is idempotent — resolving its result
again with `Exact` (on the controller state left by the first call) yields
the same offset. -/
theorem resolve_exact_idempotent (d : HtmlDoc) (o o' : Nat)
    (hne : d.pages ≠ []) (hpp : ∀ p ∈ d.pages, p ≠ [])
    (hs : strictlyIncreasing (d.pages.map pageStart) = true)
    (h : (resolve_location d (Location.exact o)).1 = some o') :
    (resolve_location (resolve_location d (Location.exact o)).2 (Location.exact o')).1 =
      some o' := by
  obtain ⟨i, hpi, hilen, _, _⟩ := page_index_some d.pages o hne hpp
  have h1 := resolve_exact_eval d o i hne hpp hpi hilen
  rw [h] at h1
  have ho' : o' = startAt d.pages i := Option.some_inj.mp h1
  have hst : (resolve_location d (Location.exact o)).2 = d := ensure_eq_self d hne
  rw [hst, ho']
  exact resolve_exact_eval d (startAt d.pages i) i hne hpp
    (page_index_start d.pages hne hpp hs i hilen) hilen

theorem resolve_exact_idempotent_witness :
    (resolve_location (resolve_location (mkDoc (Node.mk none [] [] none 0)
        [[DrawCommand.marker 0], [DrawCommand.marker 10]]) (Location.exact 3)).2
      (Location.exact 0)).1 = some 0 :=
  resolve_exact_idempotent (mkDoc (Node.mk none [] [] none 0)
      [[DrawCommand.marker 0], [DrawCommand.marker 10]]) 3 0
    (by decide) (by decide) (by decide) (by decide)

/-- C8: Previous and Next are inverses at page granularity — if
`Next(start(i))` yields `start(i+1)` then `Previous(start(i+1))` yields
`start(i)`. -/
theorem prev_next_inverse (d : HtmlDoc) (i : Nat)
    (hne : d.pages ≠ []) (hpp : ∀ p ∈ d.pages, p ≠ [])
    (hs : strictlyIncreasing (d.pages.map pageStart) = true)
    (hi1 : i + 1 < d.pages.length)
    (h : (resolve_location d (Location.next (startAt d.pages i))).1 =
      some (startAt d.pages (i + 1))) :
    (resolve_location d (Location.previous (startAt d.pages (i + 1)))).1 =
      some (startAt d.pages i) := by
  have hpi : page_index d.pages (startAt d.pages (i + 1)) = some (i + 1) :=
    page_index_start d.pages hne hpp hs (i + 1) hi1
  rw [resolve_previous_eval d (startAt d.pages (i + 1)) (i + 1) hne hpp hpi hi1,
    if_pos (by omega), Nat.add_sub_cancel]

theorem prev_next_inverse_witness :
    (resolve_location (mkDoc (Node.mk none [] [] none 0)
        [[DrawCommand.marker 0], [DrawCommand.marker 10]])
      (Location.previous (startAt [[DrawCommand.marker 0], [DrawCommand.marker 10]] 1))).1 =
      some (startAt [[DrawCommand.marker 0], [DrawCommand.marker 10]] 0) :=
  prev_next_inverse (mkDoc (Node.mk none [] [] none 0)
      [[DrawCommand.marker 0], [DrawCommand.marker 10]]) 0
    (by decide) (by decide) (by decide) (by decide) (by decide)

mutual
/-- The depth-first pre-order listing of a tree's nodes, the traversal
order of `cache_uris`. -/
def preorder : Node → List Node
  | .mk t a children x o => Node.mk t a children x o :: preorderList children

def preorderList : List Node → List Node
  | [] => []
  | c :: cs => preorder c ++ preorderList cs
end

/-- The fragment datum a node contributes: its `id` attribute paired with
its offset, if any. -/
def idOf (m : Node) : Option (String × Nat) :=
  (m.attr "id").map (fun id => (id, m.offset))

/-- The cache entry a node contributes under a given name. -/
def keyOf (name : String) (m : Node) : Option (String × Nat) :=
  (idOf m).map (fun p => (name ++ "#" ++ p.1, p.2))

mutual
theorem cacheUris_eq (name : String) :
    (n : Node) → cacheUris name n = (preorder n).filterMap (keyOf name)
  | .mk t a children x o => by
    rw [cacheUris, preorder, List.filterMap_cons, cacheUrisList_eq name children]
    cases h : (Node.mk t a children x o).attr "id" with
    | none => simp [keyOf, idOf, h]
    | some id => simp [keyOf, idOf, h, Node.offset]

theorem cacheUrisList_eq (name : String) :
    (l : List Node) → cacheUrisList name l = (preorderList l).filterMap (keyOf name)
  | [] => by rw [cacheUrisList, preorderList]; rfl
  | c :: cs => by
    rw [cacheUrisList, preorderList, List.filterMap_append, cacheUris_eq name c,
      cacheUrisList_eq name cs]
end

lemma mem_cacheUris (name : String) (root : Node) (k : String) (v : Nat) :
    (k, v) ∈ cacheUris name root ↔
      ∃ m ∈ preorder root, ∃ id, m.attr "id" = some id ∧
        k = name ++ "#" ++ id ∧ v = m.offset := by
  rw [cacheUris_eq, List.mem_filterMap]
  constructor
  · rintro ⟨m, hm, hk⟩
    unfold keyOf idOf at hk
    cases hattr : m.attr "id" with
    | none =>
      rw [hattr] at hk
      simp at hk
    | some id =>
      rw [hattr] at hk
      simp only [Option.map_some'] at hk
      have hp := Option.some.inj hk
      exact ⟨m, hm, id, hattr, (congrArg Prod.fst hp).symm, (congrArg Prod.snd hp).symm⟩
  · rintro ⟨m, hm, id, hattr, hk, hv⟩
    refine ⟨m, hm, ?_⟩
    unfold keyOf idOf
    rw [hattr]
    simp [hk, hv]

lemma mapGet_eq_none_iff (entries : List (String × Nat)) (key : String) :
    mapGet entries key = none ↔ ∀ e ∈ entries, e.1 ≠ key := by
  unfold mapGet
  rw [Option.map_eq_none', List.find?_eq_none]
  constructor
  · intro h e he
    simpa using h e (List.mem_reverse.mpr he)
  · intro h e he
    simpa using h e (List.mem_reverse.mp he)

lemma mapGet_some_mem (entries : List (String × Nat)) (key : String) (v : Nat)
    (h : mapGet entries key = some v) :
    ∃ e ∈ entries, e.1 = key ∧ e.2 = v := by
  unfold mapGet at h
  rw [Option.map_eq_some'] at h
  obtain ⟨e, hfind, hv⟩ := h
  have hpred := List.find?_some hfind
  exact ⟨e, List.mem_reverse.mp (List.mem_of_find?_eq_some hfind),
    of_decide_eq_true hpred, hv⟩

lemma findHash_none_iff : ∀ l : List Char, findHash l = none ↔ '#' ∉ l
  | [] => by simp [findHash]
  | c :: cs => by
    rw [findHash]
    by_cases h : c = '#'
    · simp [h]
    · rw [if_neg h, Option.map_eq_none', findHash_none_iff cs]
      constructor
      · intro hn hmem
        rcases List.mem_cons.mp hmem with h1 | h1
        · exact h h1.symm
        · exact hn h1
      · intro hn hmem
        exact hn (List.mem_cons_of_mem c hmem)

lemma findHash_decomp : ∀ (l : List Char) (i : Nat), findHash l = some i →
    l.take i ++ '#' :: l.drop (i + 1) = l
  | [], i, h => by simp [findHash] at h
  | c :: cs, i, h => by
    rw [findHash] at h
    by_cases hc : c = '#'
    · rw [if_pos hc] at h
      have h0 : i = 0 := (Option.some.inj h).symm
      subst h0
      simp [hc]
    · rw [if_neg hc, Option.map_eq_some'] at h
      obtain ⟨j, hj, hi⟩ := h
      subst hi
      simp only [List.take_succ_cons, List.drop_succ_cons, List.cons_append]
      rw [findHash_decomp cs j hj]

/-- C3: `resolve_link` returns nothing when the URI has no `'#'`; otherwise,
with `name` the part of the URI before the first `'#'`, it returns nothing
exactly when no tree node carries an `id` attribute whose key
`"<name>#<id>"` equals the URI, and a returned offset is the source offset
of such a node. -/
theorem resolve_link_spec (root : Node) (u : String) :
    ('#' ∉ u.data → resolve_link root u = none) ∧
    (∀ i, findHash u.data = some i →
      ((resolve_link root u = none ↔
        ∀ m ∈ preorder root, ∀ id, m.attr "id" = some id →
          String.mk (u.data.take i) ++ "#" ++ id ≠ u) ∧
      (∀ off, resolve_link root u = some off →
        ∃ m ∈ preorder root, ∃ id, m.attr "id" = some id ∧
          String.mk (u.data.take i) ++ "#" ++ id = u ∧ m.offset = off))) := by
  constructor
  · intro hno
    unfold resolve_link
    rw [(findHash_none_iff u.data).mpr hno]
  · intro i hi
    have hru : resolve_link root u =
        mapGet (cacheUris (String.mk (u.data.take i)) root) u := by
      unfold resolve_link
      rw [hi]
    constructor
    · rw [hru, mapGet_eq_none_iff]
      constructor
      · intro h m hm id hattr hkey
        have hmem : (String.mk (u.data.take i) ++ "#" ++ id, m.offset) ∈
            cacheUris (String.mk (u.data.take i)) root :=
          (mem_cacheUris _ root _ _).mpr ⟨m, hm, id, hattr, rfl, rfl⟩
        exact h _ hmem hkey
      · intro h e he hkey
        obtain ⟨m, hm, id, hattr, hk, _⟩ := (mem_cacheUris _ root e.1 e.2).mp (by
          rw [← Prod.mk.eta (p := e)] at he
          exact he)
        exact h m hm id hattr (by rw [← hk]; exact hkey)
    · intro off hoff
      rw [hru] at hoff
      obtain ⟨e, he, hk, hv⟩ := mapGet_some_mem _ _ _ hoff
      obtain ⟨m, hm, id, hattr, hk2, hv2⟩ := (mem_cacheUris _ root e.1 e.2).mp (by
        rw [← Prod.mk.eta (p := e)] at he
        exact he)
      exact ⟨m, hm, id, hattr, by rw [← hk2]; exact hk, by rw [← hv2]; exact hv⟩

/-- A tree with a node `id="sec2"` at offset 500, mirroring the spec's
fragment-resolution example. -/
def docTree : Node :=
  Node.mk (some "html") [] [Node.mk (some "div") [("id", "sec2")] [] none 500] none 0

theorem resolve_link_spec_witness :
    resolve_link docTree "doc" = none ∧
    (resolve_link docTree "doc#sec2" = none ↔
      ∀ m ∈ preorder docTree, ∀ id, m.attr "id" = some id →
        String.mk ("doc#sec2".data.take 3) ++ "#" ++ id ≠ "doc#sec2") :=
  ⟨(resolve_link_spec docTree "doc").1 (by decide),
    ((resolve_link_spec docTree "doc#sec2").2 3 (by decide)).1⟩

lemma string_eq_iff_data (s t : String) : s = t ↔ s.data = t.data := by
  constructor
  · intro h
    rw [h]
  · intro h
    cases s with
    | mk a =>
      cases t with
      | mk b => exact congrArg String.mk h

lemma key_data (a : List Char) (id : String) :
    (String.mk a ++ "#" ++ id).data = a ++ '#' :: id.data := by
  cases id with
  | mk b =>
    show (a ++ ['#']) ++ b = a ++ '#' :: b
    rw [List.append_assoc]
    rfl

lemma decide_congr {p q : Prop} [Decidable p] [Decidable q] (h : p ↔ q) :
    decide p = decide q := by
  by_cases hp : p
  · rw [decide_eq_true hp, decide_eq_true (h.mp hp)]
  · rw [decide_eq_false hp, decide_eq_false (fun hq => hp (h.mpr hq))]

/-- Key equality against the full URI depends only on the fragment: with
`name` the URI's prefix before the first `'#'`, the key `"<name>#<id>"`
equals the URI exactly when `id` is the URI's fragment. -/
lemma key_eq_iff (u : String) (i : Nat) (hi : findHash u.data = some i) (id : String) :
    (String.mk (u.data.take i) ++ "#" ++ id = u) ↔ id.data = u.data.drop (i + 1) := by
  rw [string_eq_iff_data, key_data]
  constructor
  · intro h
    have h2 : u.data.take i ++ '#' :: id.data =
        u.data.take i ++ '#' :: u.data.drop (i + 1) :=
      h.trans (findHash_decomp u.data i hi).symm
    have h3 := List.append_cancel_left h2
    injection h3
  · intro h
    rw [h]
    exact findHash_decomp u.data i hi

lemma find?_map_comp {α β : Type} (f : α → β) (p : β → Bool) :
    ∀ l : List α, (l.map f).find? p = (l.find? (fun a => p (f a))).map f
  | [] => rfl
  | a :: l => by
    cases h : p (f a) with
    | true => simp [List.find?, h]
    | false => simp [List.find?, h, find?_map_comp f p l]

lemma mapGet_map_key (entries : List (String × Nat)) (f : String → String) (u : String) :
    mapGet (entries.map (fun p => (f p.1, p.2))) u =
      (entries.reverse.find? (fun p => decide (f p.1 = u))).map (fun p => p.2) := by
  unfold mapGet
  rw [← List.map_reverse, find?_map_comp, Option.map_map]
  rfl

lemma cacheUris_as_map (name : String) (root : Node) :
    cacheUris name root = ((preorder root).filterMap idOf).map
      (fun p => (name ++ "#" ++ p.1, p.2)) := by
  rw [cacheUris_eq, List.map_filterMap]
  rfl

/-- Evaluation of `resolve_link` purely in terms of the fragment: lookup of
the last pre-order node whose `id` equals the URI's fragment. -/
lemma resolve_link_frag (root : Node) (u : String) (i : Nat)
    (hi : findHash u.data = some i) :
    resolve_link root u =
      (((preorder root).filterMap idOf).reverse.find?
        (fun p => decide (p.1.data = u.data.drop (i + 1)))).map (fun p => p.2) := by
  have hru : resolve_link root u =
      mapGet (cacheUris (String.mk (u.data.take i)) root) u := by
    unfold resolve_link
    rw [hi]
  rw [hru, cacheUris_as_map, mapGet_map_key]
  congr 1
  apply congrArg (fun q => List.find? q (((preorder root).filterMap idOf).reverse))
  funext p
  exact decide_congr (key_eq_iff u i hi p.1)

/-- C10: the name portion of a fragment URI is irrelevant — two URIs with
the same fragment after their first `'#'` resolve identically, because the
cache key is built from the name extracted from the queried URI itself. -/
theorem resolve_link_name_irrelevant (root : Node) (u1 u2 : String) (f : List Char)
    (i1 i2 : Nat) (h1 : findHash u1.data = some i1) (h2 : findHash u2.data = some i2)
    (hf1 : u1.data.drop (i1 + 1) = f) (hf2 : u2.data.drop (i2 + 1) = f) :
    resolve_link root u1 = resolve_link root u2 := by
  rw [resolve_link_frag root u1 i1 h1, resolve_link_frag root u2 i2 h2, hf1, hf2]

theorem resolve_link_name_irrelevant_witness :
    resolve_link uriTree "b#a" = resolve_link uriTree "cc#a" :=
  resolve_link_name_irrelevant uriTree "b#a" "cc#a" ['a'] 1 2
    (by decide) (by decide) (by decide) (by decide)

lemma resolve_location_state (d : HtmlDoc) (loc : Location) :
    (resolve_location d loc).2 = ensure d ∨ (resolve_location d loc).2 = d := by
  cases loc with
  | exact o => exact Or.inl rfl
  | previous o => exact Or.inl rfl
  | next o => exact Or.inl rfl
  | uri u => exact Or.inr rfl
  | localUri n u => exact Or.inr rfl

/-- C9: `words(loc)` returns nothing exactly when location resolution
returns nothing — there is no partial result — and otherwise returns the
bounded-text records of the Text commands of the resolved page (each
carrying that command's string, rectangle and source offset as a dynamic
text location, per `wordRecord`), together with the resolved anchor offset
as the second component. -/
theorem words_spec (d : HtmlDoc) (loc : Location) (hpp : ∀ p ∈ d.pages, p ≠ []) :
    ((words d loc).1 = none ↔ (resolve_location d loc).1 = none) ∧
    (∀ o, (resolve_location d loc).1 = some o →
      ∃ i, page_index (ensure (resolve_location d loc).2).pages o = some i ∧
        (words d loc).1 =
          some (((ensure (resolve_location d loc).2).pages.getD i []).filterMap
            wordRecord, o)) := by
  have hpp1 : ∀ p ∈ (resolve_location d loc).2.pages, p ≠ [] := by
    rcases resolve_location_state d loc with h | h
    · rw [h]
      exact ensure_all_ne d hpp
    · rw [h]
      exact hpp
  cases hr : resolve_location d loc with
  | mk r1 d1 =>
    rw [hr] at hpp1
    cases r1 with
    | none => simp [words, hr]
    | some o0 =>
      have hne2 : (ensure d1).pages ≠ [] := ensure_pages_ne d1
      have hpp2 : ∀ p ∈ (ensure d1).pages, p ≠ [] := ensure_all_ne d1 hpp1
      obtain ⟨i, hpi, hilen, _, _⟩ := page_index_some (ensure d1).pages o0 hne2 hpp2
      constructor
      · simp [words, hr, page_index_st, hpi]
      · intro o ho
        simp only [hr] at ho
        have ho0 : o0 = o := Option.some_inj.mp ho
        subst ho0
        refine ⟨i, hpi, ?_⟩
        simp [words, hr, page_index_st, hpi]

/-- A controller with one built page holding one Text command, for the C9
witness. -/
def wordsDoc : HtmlDoc :=
  mkDoc (Node.mk none [] [] none 0)
    [[DrawCommand.text ⟨2, "hi", ⟨0, 0, 1, 1⟩, none, TextAlign.left⟩]]

theorem words_spec_witness :
    ((words wordsDoc (Location.exact 0)).1 = none ↔
      (resolve_location wordsDoc (Location.exact 0)).1 = none) ∧
    (∀ o, (resolve_location wordsDoc (Location.exact 0)).1 = some o →
      ∃ i, page_index (ensure (resolve_location wordsDoc (Location.exact 0)).2).pages o =
          some i ∧
        (words wordsDoc (Location.exact 0)).1 =
          some (((ensure (resolve_location wordsDoc (Location.exact 0)).2).pages.getD
            i []).filterMap wordRecord, o)) :=
  words_spec wordsDoc (Location.exact 0) (by decide)

end Plato
